import Mathlib

/-!
# Verification of the citation-normalization core of `Weather_today.py`

This file gives a shallow embedding of the citation pipeline of the
repository (functions `normalize_brackets`, `strip_invalid_citations`,
`extract_ref_order`, `renumber_citations`, the link-dedup/sort step of
`fetch_items`, the evidence block of `summarize_overall`, and the
reference-list construction of `build_email`), and proves the specified
properties about it.

Text is modelled as `List Char`.  Python's `re.sub`/`re.finditer` over the
three citation patterns `\[(\d+)\]`, `\{(\d+)\}`, `\((\d+)\)` is modelled by
a single left-to-right scanner `scanF`: at each position it tries to match
`op`, a maximal nonempty run of digits, then `cl`; on success it emits a
`Tok.mark` and resumes after the match, otherwise it emits the current
character as a `Tok.lit` and advances one position.  (For these patterns,
greedy matching with backtracking coincides with maximal-munch: after the
maximal digit run fails to be followed by `cl`, no shorter run can be,
since a digit can never match `cl`, `cl` being a non-digit bracket.)
Python's unbounded `int` is modelled by `Nat`.
-/

namespace WeatherToday

/-- A token produced by scanning text for the citation pattern
`op (\d+) cl`: either a literal character (no match at that position) or a
matched marker carrying its digit characters. -/
inductive Tok where
  | lit : Char → Tok
  | mark : List Char → Tok
deriving DecidableEq

/-- Numeric value of a digit string, as computed by Python's `int`. -/
def digitsVal (ds : List Char) : Nat :=
  ds.foldl (fun a c => a * 10 + (c.toNat - 48)) 0

/-- Decimal digits of a natural number (fuelled helper; fuel is structural so
that the kernel can evaluate it). -/
def natDigitsF : Nat → Nat → List Char
  | 0, _ => []
  | f + 1, n =>
    if n < 10 then [Nat.digitChar n]
    else natDigitsF f (n / 10) ++ [Nat.digitChar (n % 10)]

/-- Decimal digit characters of `n`, most significant first; models Python's
`f"{n}"` rendering of a nonnegative integer. -/
def natDigits (n : Nat) : List Char := natDigitsF (n + 1) n

/-- One pass of the regex scanner for pattern `op (\d+) cl` (fuelled; the
fuel only needs to exceed the text length). -/
def scanF (op cl : Char) : Nat → List Char → List Tok
  | _, [] => []
  | 0, _ :: _ => []
  | f + 1, c :: cs =>
    if c = op ∧ cs.takeWhile Char.isDigit ≠ [] ∧
        (cs.dropWhile Char.isDigit).head? = some cl then
      Tok.mark (cs.takeWhile Char.isDigit) ::
        scanF op cl f (cs.dropWhile Char.isDigit).tail
    else Tok.lit c :: scanF op cl f cs

/-- Tokenization of a text by the scanner for pattern `op (\d+) cl`. -/
def tokenize (op cl : Char) (t : List Char) : List Tok :=
  scanF op cl (t.length + 1) t

/-- Rebuild text from tokens, rendering each matched marker through `repl`
(the replacement function of `re.sub`) and keeping literals. -/
def renderTok (repl : List Char → List Char) : List Tok → List Char
  | [] => []
  | Tok.lit c :: ts => c :: renderTok repl ts
  | Tok.mark ds :: ts => repl ds ++ renderTok repl ts

/-- Model of Python's `re.sub(op + r"(\d+)" + cl, repl, t)`. -/
def reSub (op cl : Char) (repl : List Char → List Char) (t : List Char) :
    List Char :=
  renderTok repl (tokenize op cl t)

/-- The canonical citation form `[ds]`. -/
def wrap (ds : List Char) : List Char := '[' :: ds ++ [']']

/-- `normalize_brackets` from the source: rewrite `{n}` then `(n)` to `[n]`. -/
def normalize_brackets (t : List Char) : List Char :=
  reSub '(' ')' wrap (reSub '{' '}' wrap t)

/-- `strip_invalid_citations` from the source: remove any `[n]` with `n`
outside `1..max_n` (replacing the whole match by the empty string), keep
in-range markers verbatim (`m.group(0)`). -/
def strip_invalid_citations (t : List Char) (maxN : Nat) : List Char :=
  reSub '[' ']'
    (fun ds => if 1 ≤ digitsVal ds ∧ digitsVal ds ≤ maxN then wrap ds else [])
    t

/-- The numeric values of all `[n]` matches of a text, in scan order;
models iterating `re.finditer(r"\[(\d+)\]", t)`. -/
def markersOf (t : List Char) : List Nat :=
  (tokenize '[' ']' t).filterMap
    (fun tk => match tk with
      | Tok.mark ds => some (digitsVal ds)
      | Tok.lit _ => none)

/-- The scan at an opening character fails when the following digit run is
empty or is not followed by the closing character: the regex match fails
and the scan advances one position. -/
def FailCond (cl : Char) (cs : List Char) : Prop :=
  cs.takeWhile Char.isDigit = [] ∨ (cs.dropWhile Char.isDigit).head? ≠ some cl

instance (cl : Char) (cs : List Char) : Decidable (FailCond cl cs) := by
  unfold FailCond
  infer_instance

/-- Token classifier: literal tokens. -/
def isLit : Tok → Bool
  | Tok.lit _ => true
  | Tok.mark _ => false

/-- The `(op, cl)` scan finds no match in `t`. -/
def matchFree (op cl : Char) (t : List Char) : Prop :=
  (tokenize op cl t).all isLit = true

instance (op cl : Char) (t : List Char) : Decidable (matchFree op cl t) := by
  unfold matchFree
  infer_instance

/-- `R` produces a canonical bracketed digit string on every marker that
the `(op, cl)` scan finds in `t`. -/
def GoodRepl (op cl : Char) (R : List Char → List Char) (t : List Char) : Prop :=
  ∀ ds, Tok.mark ds ∈ tokenize op cl t →
    ∃ ws, ws ≠ [] ∧ (∀ w ∈ ws, w.isDigit) ∧ R ds = '[' :: (ws ++ [']'])

/-- The accumulation loop of `extract_ref_order`: keep a value when it is in
`1..maxN` and not yet collected. -/
def extractAux (maxN : Nat) (nums : List Nat) : List Nat → List Nat
  | [] => nums
  | n :: ns =>
    if 1 ≤ n ∧ n ≤ maxN ∧ n ∉ nums then extractAux maxN (nums ++ [n]) ns
    else extractAux maxN nums ns

/-- `extract_ref_order` from the source: distinct valid `[n]`s in order of
first appearance. -/
def extract_ref_order (t : List Char) (maxN : Nat) : List Nat :=
  extractAux maxN [] (markersOf t)

/-- Index (0-based) of the last occurrence of `n` in the list, offset by
`k`; models the value left in a Python dict after writing every occurrence
in order. -/
def lastIdxAux : List Nat → Nat → Nat → Option Nat
  | [], _, _ => none
  | m :: ms, n, k =>
    match lastIdxAux ms n (k + 1) with
    | some j => some j
    | none => if m = n then some k else none

/-- The dict `{old: i+1 for i, old in enumerate(cited_nums)}` of
`renumber_citations`, as a function (later occurrences overwrite earlier
ones, as in a Python dict). -/
def mappingOf (cited : List Nat) (n : Nat) : Option Nat :=
  (lastIdxAux cited n 0).map (fun j => j + 1)

/-- `renumber_citations` from the source: rewrite each `[old]` to
`[mapping[old]]` when `old` is a key of the mapping and delete it
otherwise; return the new text and the mapping. -/
def renumber_citations (t : List Char) (cited : List Nat) :
    List Char × (Nat → Option Nat) :=
  (reSub '[' ']'
    (fun ds =>
      match mappingOf cited (digitsVal ds) with
      | some k => wrap (natDigits k)
      | none => [])
    t,
   mappingOf cited)

/-- The `(new, old)` pairs of `sorted(mapping.items(), key=lambda kv: kv[1])`
in `build_email`, for a duplicate-free cited list (as produced by
`extract_ref_order`): the i-th cited old index is paired with new index
`i+1`, in ascending order of the new index. -/
def refPairs (cited : List Nat) : List (Nat × Nat) :=
  cited.enum.map (fun p => (p.1 + 1, p.2))

/-- The reference entries of `build_email`: each new index paired with the
evidence item `numbered[old - 1]`. -/
def refItems {α : Type} (items : List α) (cited : List Nat) :
    List (Nat × Option α) :=
  (refPairs cited).map (fun p => (p.1, items.get? (p.2 - 1)))

/-- One news item admitted into the brief (`fetch_items` record). -/
structure Item where
  title : List Char
  link : List Char
  abstract : List Char
  pub : Int
deriving DecidableEq

/-- Insertion into the model of the Python dict `{it["link"]: it}`: an
existing key keeps its position but its value is overwritten by the new
item; a fresh key is appended. -/
def dictInsert (m : List Item) (it : Item) : List Item :=
  if m.any (fun j => j.link = it.link) then
    m.map (fun j => if j.link = it.link then it else j)
  else m ++ [it]

/-- The values of `{it["link"]: it for it in items}`, in key insertion
order with last-seen values. -/
def dedup_by_link (items : List Item) : List Item :=
  items.foldl dictInsert []

/-- The dedup/sort tail of `fetch_items`:
`sorted(uniq.values(), key=lambda x: x["pub"], reverse=True)` (a stable
sort, newest first). -/
def fetch_dedup (items : List Item) : List Item :=
  List.mergeSort (dedup_by_link items) (fun a b => decide (b.pub ≤ a.pub))

/-- The evidence lines of `summarize_overall`:
`f"[{i+1}] {title} ({link}): {abstract}"` for `i, it` in
`enumerate(numbered_items)`. -/
def evidence_lines (items : List Item) : List (List Char) :=
  items.enum.map
    (fun p =>
      '[' :: natDigits (p.1 + 1) ++
        ("] ".data ++ p.2.title ++ " (".data ++ p.2.link ++ "): ".data ++
          p.2.abstract))

/-- The evidence block handed to the text generator: the evidence lines
joined by newlines. -/
def evidence_block (items : List Item) : List Char :=
  List.intercalate "\n".data (evidence_lines items)

/-- The fallback reference entry used by `build_email` when no citation
survives. -/
def no_refs_msg : List Char := "No references available.".data

/-- A plain-text reference line `f"[{new}] {title} {link}"` of
`build_email`. -/
def ref_text_line (new : Nat) (oit : Option Item) : List Char :=
  match oit with
  | some it => '[' :: natDigits new ++ ("] ".data ++ it.title ++ " ".data ++ it.link)
  | none => []

/-- The citation-processing core of `build_email`: normalize brackets,
strip invalid citations, extract the first-appearance order; if no valid
citation was found, skip renumbering, return an empty reference mapping and
the placeholder line; otherwise renumber and build the reference lines.
Returns (final text, (new, old) reference pairs, plain-text reference
lines). -/
def build_email_core (items : List Item) (raw : List Char) :
    List Char × List (Nat × Nat) × List (List Char) :=
  let n := items.length
  let overall := strip_invalid_citations (normalize_brackets raw) n
  let old_order := extract_ref_order overall n
  if old_order = [] then (overall, [], [no_refs_msg])
  else
    ((renumber_citations overall old_order).1,
     refPairs old_order,
     (refPairs old_order).map (fun p => ref_text_line p.1 (items.get? (p.2 - 1))))

/-- The validity-filtered text of the citation pipeline: bracket
normalization followed by out-of-range stripping against evidence count
`n`. -/
def filtered_text (raw : List Char) (n : Nat) : List Char :=
  strip_invalid_citations (normalize_brackets raw) n

/-- The first-appearance order of distinct valid cited indices of the
pipeline. -/
def cited_order (raw : List Char) (n : Nat) : List Nat :=
  extract_ref_order (filtered_text raw n) n

/-- The final renumbered text of the pipeline (steps 1-4). -/
def final_text (raw : List Char) (n : Nat) : List Char :=
  (renumber_citations (filtered_text raw n) (cited_order raw n)).1

/-! ## Digit rendering and parsing facts -/

/-- `Nat.digitChar` of a value below 10 is a decimal digit character. -/
theorem digitChar_isDigit {d : Nat} (h : d < 10) : (Nat.digitChar d).isDigit := by
  interval_cases d <;> decide

/-- Code of `Nat.digitChar` of a value below 10. -/
theorem digitChar_toNat {d : Nat} (h : d < 10) : (Nat.digitChar d).toNat = 48 + d := by
  interval_cases d <;> decide

/-- `natDigitsF` never returns the empty list when given enough fuel. -/
theorem natDigitsF_ne_nil : ∀ f n, n < f → natDigitsF f n ≠ [] := by
  intro f
  induction f with
  | zero => intro n h; omega
  | succ f _ =>
    intro n _
    by_cases h10 : n < 10
    · simp [natDigitsF, h10]
    · simp [natDigitsF, h10]

/-- All characters of `natDigitsF` are decimal digits. -/
theorem natDigitsF_isDigit : ∀ f n, n < f → ∀ c ∈ natDigitsF f n, c.isDigit := by
  intro f
  induction f with
  | zero => intro n h; omega
  | succ f ih =>
    intro n hn c hc
    by_cases h10 : n < 10
    · simp [natDigitsF, h10] at hc
      subst hc
      exact digitChar_isDigit h10
    · simp [natDigitsF, h10] at hc
      rcases hc with hc | hc
      · exact ih (n / 10) (by omega) c hc
      · subst hc
        exact digitChar_isDigit (Nat.mod_lt _ (by norm_num))

/-- `digitsVal` of a list extended by one digit character. -/
theorem digitsVal_append_single (ds : List Char) (c : Char) :
    digitsVal (ds ++ [c]) = digitsVal ds * 10 + (c.toNat - 48) := by
  simp [digitsVal, List.foldl_append]

/-- `digitsVal` recovers the number rendered by `natDigitsF`. -/
theorem digitsVal_natDigitsF : ∀ f n, n < f → digitsVal (natDigitsF f n) = n := by
  intro f
  induction f with
  | zero => intro n h; omega
  | succ f ih =>
    intro n hn
    by_cases h10 : n < 10
    · simp [natDigitsF, h10, digitsVal, digitChar_toNat h10]
    · have hm : n % 10 < 10 := Nat.mod_lt _ (by norm_num)
      rw [natDigitsF]
      simp only [h10, if_false]
      rw [digitsVal_append_single, ih (n / 10) (by omega), digitChar_toNat hm]
      omega

/-- The decimal rendering of `n` is nonempty. -/
theorem natDigits_ne_nil (n : Nat) : natDigits n ≠ [] :=
  natDigitsF_ne_nil _ n (Nat.lt_succ_self n)

/-- The decimal rendering of `n` consists of digit characters. -/
theorem natDigits_isDigit (n : Nat) : ∀ c ∈ natDigits n, c.isDigit :=
  natDigitsF_isDigit _ n (Nat.lt_succ_self n)

/-- Parsing the decimal rendering of `n` gives back `n`. -/
theorem digitsVal_natDigits (n : Nat) : digitsVal (natDigits n) = n :=
  digitsVal_natDigitsF _ n (Nat.lt_succ_self n)

/-! ## takeWhile / dropWhile helpers -/

/-- `takeWhile` over an all-satisfying block keeps the block. -/
theorem takeWhile_all_append {p : Char → Bool} :
    ∀ (a : List Char), (∀ c ∈ a, p c) → ∀ (x : List Char),
      (a ++ x).takeWhile p = a ++ x.takeWhile p := by
  intro a
  induction a with
  | nil => intro _ x; simp
  | cons c a ih =>
    intro ha x
    have hc : p c := ha c (by simp)
    simp only [List.cons_append, List.takeWhile_cons, hc, if_true]
    rw [ih (fun d hd => ha d (by simp [hd])) x]

/-- `dropWhile` over an all-satisfying block skips the block. -/
theorem dropWhile_all_append {p : Char → Bool} :
    ∀ (a : List Char), (∀ c ∈ a, p c) → ∀ (x : List Char),
      (a ++ x).dropWhile p = x.dropWhile p := by
  intro a
  induction a with
  | nil => intro _ x; simp
  | cons c a ih =>
    intro ha x
    have hc : p c := ha c (by simp)
    simp only [List.cons_append, List.dropWhile_cons, hc, if_true]
    exact ih (fun d hd => ha d (by simp [hd])) x

/-- `dropWhile` over an all-satisfying list is empty. -/
theorem dropWhile_all_nil {p : Char → Bool} :
    ∀ (a : List Char), (∀ c ∈ a, p c) → a.dropWhile p = [] := by
  intro a
  induction a with
  | nil => intro _; rfl
  | cons c cs ih =>
    intro ha
    rw [List.dropWhile_cons, if_pos (ha c (by simp))]
    exact ih (fun d hd => ha d (by simp [hd]))

/-- The head of a `dropWhile` result does not satisfy the predicate. -/
theorem dropWhile_head_not {p : Char → Bool} :
    ∀ (l : List Char) {r : Char} {rs : List Char},
      l.dropWhile p = r :: rs → ¬ p r := by
  intro l
  induction l with
  | nil => intro r rs h; simp at h
  | cons c cs ih =>
    intro r rs h
    rw [List.dropWhile_cons] at h
    by_cases hc : p c
    · simp only [hc, if_true] at h
      exact ih h
    · simp only [hc, if_false] at h
      cases h
      exact hc

/-! ## Scanner equations -/

/-- `dropWhile` never lengthens a list. -/
theorem dropWhile_length_le (p : Char → Bool) :
    ∀ (l : List Char), (l.dropWhile p).length ≤ l.length := by
  intro l
  induction l with
  | nil => simp
  | cons c cs ih =>
    rw [List.dropWhile_cons]
    by_cases hc : p c
    · simp only [hc, if_true]
      exact le_trans ih (by simp)
    · simp [hc]

/-- The scanner result does not depend on the fuel once it exceeds the
text length. -/
theorem scanF_irrel (op cl : Char) :
    ∀ (f₁ : Nat) {t : List Char} (f₂ : Nat), t.length < f₁ → t.length < f₂ →
      scanF op cl f₁ t = scanF op cl f₂ t := by
  intro f₁
  induction f₁ with
  | zero => intro t f₂ h1 _; omega
  | succ f ih =>
    intro t f₂ h1 h2
    cases t with
    | nil =>
      cases f₂ with
      | zero => omega
      | succ g => rfl
    | cons c cs =>
      cases f₂ with
      | zero => omega
      | succ g =>
        have hlen : cs.length < f := by simp at h1; omega
        have hlen2 : cs.length < g := by simp at h2; omega
        simp only [scanF]
        by_cases hc : c = op ∧ cs.takeWhile Char.isDigit ≠ [] ∧
            (cs.dropWhile Char.isDigit).head? = some cl
        · rw [if_pos hc, if_pos hc]
          have hdwl : (cs.dropWhile Char.isDigit).length ≤ cs.length :=
            dropWhile_length_le Char.isDigit cs
          have htl : (cs.dropWhile Char.isDigit).tail.length =
              (cs.dropWhile Char.isDigit).length - 1 := List.length_tail _
          exact congrArg _ (ih g (by omega) (by omega))
        · rw [if_neg hc, if_neg hc]
          exact congrArg _ (ih g hlen hlen2)

/-- Tokenizing the empty text. -/
theorem tokenize_nil (op cl : Char) : tokenize op cl [] = [] := rfl

/-- Tokenizing a text whose head cannot start a match. -/
theorem tokenize_cons_lit (op cl : Char) {c : Char} (cs : List Char) (h : c ≠ op) :
    tokenize op cl (c :: cs) = Tok.lit c :: tokenize op cl cs := by
  have hcond : ¬ (c = op ∧ cs.takeWhile Char.isDigit ≠ [] ∧
      (cs.dropWhile Char.isDigit).head? = some cl) := fun hh => h hh.1
  simp only [tokenize, List.length_cons]
  conv_lhs => rw [scanF]
  rw [if_neg hcond]

/-- Tokenizing a text that starts with a failed match attempt. -/
theorem tokenize_cons_fail (op cl : Char) (cs : List Char) (h : FailCond cl cs) :
    tokenize op cl (op :: cs) = Tok.lit op :: tokenize op cl cs := by
  have hcond : ¬ (op = op ∧ cs.takeWhile Char.isDigit ≠ [] ∧
      (cs.dropWhile Char.isDigit).head? = some cl) := by
    rcases h with h | h
    · exact fun hh => hh.2.1 h
    · exact fun hh => h hh.2.2
  simp only [tokenize, List.length_cons]
  conv_lhs => rw [scanF]
  rw [if_neg hcond]

/-- Tokenizing a text that starts with a successful match
`op ++ digits ++ cl`. -/
theorem tokenize_cons_mark (op cl : Char) (hcl : ¬ cl.isDigit) {ds : List Char}
    (rs : List Char) (hne : ds ≠ []) (hds : ∀ d ∈ ds, d.isDigit) :
    tokenize op cl (op :: (ds ++ cl :: rs)) = Tok.mark ds :: tokenize op cl rs := by
  have htw : (ds ++ cl :: rs).takeWhile Char.isDigit = ds := by
    rw [takeWhile_all_append ds hds, List.takeWhile_cons]
    simp [hcl]
  have hdw : (ds ++ cl :: rs).dropWhile Char.isDigit = cl :: rs := by
    rw [dropWhile_all_append ds hds, List.dropWhile_cons]
    simp [hcl]
  have hcond : op = op ∧ (ds ++ cl :: rs).takeWhile Char.isDigit ≠ [] ∧
      ((ds ++ cl :: rs).dropWhile Char.isDigit).head? = some cl := by
    refine ⟨rfl, ?_, ?_⟩
    · rw [htw]; exact hne
    · rw [hdw]; rfl
  simp only [tokenize, List.length_cons]
  conv_lhs => rw [scanF]
  rw [if_pos hcond, htw, hdw]
  simp only [List.tail_cons]
  exact congrArg _ (scanF_irrel op cl _ _ (by simp; omega) (Nat.lt_succ_self _))

/-- A failing match attempt really has no match: the converse
decomposition. -/
theorem not_failCond_decomp (cl : Char) (cs : List Char) (h : ¬ FailCond cl cs) :
    ∃ rs, cs = cs.takeWhile Char.isDigit ++ cl :: rs ∧
      cs.takeWhile Char.isDigit ≠ [] := by
  rw [FailCond] at h
  push_neg at h
  obtain ⟨hne, hhd⟩ := h
  cases hdw : cs.dropWhile Char.isDigit with
  | nil => rw [hdw] at hhd; simp at hhd
  | cons r rs =>
    rw [hdw] at hhd
    simp only [List.head?_cons, Option.some.injEq] at hhd
    refine ⟨rs, ?_, hne⟩
    conv_lhs => rw [← List.takeWhile_append_dropWhile Char.isDigit cs]
    rw [hdw, hhd]

/-- Structural induction along the scanner: a property holds of every text
as soon as it is preserved by the three scan steps (literal character,
successful match, failed match attempt). -/
theorem tok_induction (op cl : Char) (P : List Char → Prop)
    (hnil : P [])
    (hlit : ∀ c cs, c ≠ op → P cs → P (c :: cs))
    (hmark : ∀ ds rs, ds ≠ [] → (∀ d ∈ ds, d.isDigit) → P rs →
      P (op :: (ds ++ cl :: rs)))
    (hfail : ∀ cs, FailCond cl cs → P cs → P (op :: cs)) :
    ∀ t, P t := by
  have key : ∀ N t, t.length ≤ N → P t := by
    intro N
    induction N with
    | zero =>
      intro t ht
      cases t with
      | nil => exact hnil
      | cons c cs => simp at ht
    | succ N ih =>
      intro t ht
      cases t with
      | nil => exact hnil
      | cons c cs =>
        have hcs : cs.length ≤ N := by simp at ht; omega
        by_cases hop : c = op
        · subst hop
          by_cases hfc : FailCond cl cs
          · exact hfail cs hfc (ih cs hcs)
          · obtain ⟨rs, hdecomp, hne⟩ := not_failCond_decomp cl cs hfc
            have hlrs : rs.length ≤ N := by
              have hl := congrArg List.length hdecomp
              simp at hl
              omega
            rw [hdecomp]
            exact hmark _ _ hne (fun d hd => List.mem_takeWhile_imp hd) (ih rs hlrs)
        · exact hlit c cs hop (ih cs hcs)
  intro t
  exact key t.length t le_rfl

/-! ## Rendering lemmas -/

/-- `renderTok` distributes over list append. -/
theorem renderTok_append (r : List Char → List Char) :
    ∀ ts₁ ts₂, renderTok r (ts₁ ++ ts₂) = renderTok r ts₁ ++ renderTok r ts₂ := by
  intro ts₁
  induction ts₁ with
  | nil => intro ts₂; rfl
  | cons tk ts ih =>
    intro ts₂
    cases tk with
    | lit c => simp [renderTok, ih]
    | mark ds => simp [renderTok, ih]

/-- Rendering a list of literal tokens gives back the characters. -/
theorem renderTok_map_lit (r : List Char → List Char) :
    ∀ a : List Char, renderTok r (a.map Tok.lit) = a := by
  intro a
  induction a with
  | nil => rfl
  | cons c cs ih => simp [renderTok, ih]

/-- Two replacement functions that agree on every marker of a token list
render it identically. -/
theorem renderTok_congr {r₁ r₂ : List Char → List Char} :
    ∀ ts, (∀ ds, Tok.mark ds ∈ ts → r₁ ds = r₂ ds) →
      renderTok r₁ ts = renderTok r₂ ts := by
  intro ts
  induction ts with
  | nil => intro _; rfl
  | cons tk ts ih =>
    intro h
    cases tk with
    | lit c =>
      simp only [renderTok]
      rw [ih (fun ds hds => h ds (List.mem_cons_of_mem _ hds))]
    | mark ds =>
      simp only [renderTok]
      rw [h ds (List.mem_cons_self _ _), ih (fun ds hds => h ds (List.mem_cons_of_mem _ hds))]

/-- Tokenizing a block of characters that can never open a match, followed
by anything. -/
theorem tokenize_lit_append (op cl : Char) :
    ∀ (a b : List Char), (∀ c ∈ a, c ≠ op) →
      tokenize op cl (a ++ b) = a.map Tok.lit ++ tokenize op cl b := by
  intro a
  induction a with
  | nil => intro b _; rfl
  | cons c a ih =>
    intro b ha
    rw [List.cons_append, tokenize_cons_lit op cl _ (ha c (by simp))]
    rw [ih b (fun d hd => ha d (by simp [hd]))]
    rfl

/-- `reSub` on the empty text. -/
theorem reSub_nil (op cl : Char) (r : List Char → List Char) :
    reSub op cl r [] = [] := rfl

/-- `reSub` past a character that cannot open a match. -/
theorem reSub_cons_lit (op cl : Char) {c : Char} (cs : List Char)
    (r : List Char → List Char) (h : c ≠ op) :
    reSub op cl r (c :: cs) = c :: reSub op cl r cs := by
  rw [reSub, tokenize_cons_lit op cl cs h]
  rfl

/-- `reSub` past a failed match attempt. -/
theorem reSub_cons_fail (op cl : Char) (cs : List Char)
    (r : List Char → List Char) (h : FailCond cl cs) :
    reSub op cl r (op :: cs) = op :: reSub op cl r cs := by
  rw [reSub, tokenize_cons_fail op cl cs h]
  rfl

/-- `reSub` replaces a successful match and continues after it. -/
theorem reSub_cons_mark (op cl : Char) (hcl : ¬ cl.isDigit) {ds : List Char}
    (rs : List Char) (r : List Char → List Char) (hne : ds ≠ [])
    (hds : ∀ d ∈ ds, d.isDigit) :
    reSub op cl r (op :: (ds ++ cl :: rs)) = r ds ++ reSub op cl r rs := by
  rw [reSub, tokenize_cons_mark op cl hcl rs hne hds]
  rfl

/-- Every marker emitted by the scanner carries a nonempty digit string. -/
theorem mark_shape (op cl : Char) (hcl : ¬ cl.isDigit) :
    ∀ t ds, Tok.mark ds ∈ tokenize op cl t → ds ≠ [] ∧ ∀ d ∈ ds, d.isDigit := by
  refine tok_induction op cl
    (fun t => ∀ ds, Tok.mark ds ∈ tokenize op cl t → ds ≠ [] ∧ ∀ d ∈ ds, d.isDigit)
    ?_ ?_ ?_ ?_
  · intro ds h
    rw [tokenize_nil] at h
    simp at h
  · intro c cs hop ih ds h
    rw [tokenize_cons_lit op cl cs hop] at h
    simp only [List.mem_cons] at h
    rcases h with h | h
    · cases h
    · exact ih ds h
  · intro ds' rs hne hds ih ds h
    rw [tokenize_cons_mark op cl hcl rs hne hds] at h
    simp only [List.mem_cons] at h
    rcases h with h | h
    · cases h
      exact ⟨hne, hds⟩
    · exact ih ds h
  · intro cs hfc ih ds h
    rw [tokenize_cons_fail op cl cs hfc] at h
    simp only [List.mem_cons] at h
    rcases h with h | h
    · cases h
    · exact ih ds h

/-! ## Replacement-shape machinery

For re-scanning the output of a substitution we track that every
replacement actually used is of the canonical form `'[' ++ digits ++ ']'`
with a nonempty digit string.  This holds both for `wrap` (bracket
normalization, validity filtering on surviving markers) and for the
renumbering replacement on covered markers. -/

/-- `wrap` is a canonical replacement on every text. -/
theorem goodRepl_wrap (op cl : Char) (hcl : ¬ cl.isDigit) (t : List Char) :
    GoodRepl op cl wrap t := by
  intro ds h
  obtain ⟨hne, hds⟩ := mark_shape op cl hcl t ds h
  exact ⟨ds, hne, hds, rfl⟩

/-- `GoodRepl` descends past a literal head. -/
theorem goodRepl_tail_lit {op cl : Char} {R : List Char → List Char} {c : Char}
    {cs : List Char} (hop : c ≠ op) (h : GoodRepl op cl R (c :: cs)) :
    GoodRepl op cl R cs := by
  intro ds hm
  refine h ds ?_
  rw [tokenize_cons_lit op cl cs hop]
  exact List.mem_cons_of_mem _ hm

/-- `GoodRepl` descends past a failed match attempt. -/
theorem goodRepl_tail_fail {op cl : Char} {R : List Char → List Char}
    {cs : List Char} (hfc : FailCond cl cs) (h : GoodRepl op cl R (op :: cs)) :
    GoodRepl op cl R cs := by
  intro ds hm
  refine h ds ?_
  rw [tokenize_cons_fail op cl cs hfc]
  exact List.mem_cons_of_mem _ hm

/-- `GoodRepl` descends past a successful match, and applies to it. -/
theorem goodRepl_tail_mark {op cl : Char} {R : List Char → List Char}
    (hcl : ¬ cl.isDigit) {ds : List Char} {rs : List Char} (hne : ds ≠ [])
    (hds : ∀ d ∈ ds, d.isDigit)
    (h : GoodRepl op cl R (op :: (ds ++ cl :: rs))) :
    GoodRepl op cl R rs ∧
      ∃ ws, ws ≠ [] ∧ (∀ w ∈ ws, w.isDigit) ∧ R ds = '[' :: (ws ++ [']']) := by
  constructor
  · intro ds' hm
    refine h ds' ?_
    rw [tokenize_cons_mark op cl hcl rs hne hds]
    exact List.mem_cons_of_mem _ hm
  · refine h ds ?_
    rw [tokenize_cons_mark op cl hcl rs hne hds]
    exact List.mem_cons_self _ _

/-- `GoodRepl` descends past a leading digit run. -/
theorem goodRepl_dropWhile {op cl : Char} {R : List Char → List Char}
    (hop : ¬ op.isDigit) :
    ∀ {cs : List Char}, GoodRepl op cl R cs →
      GoodRepl op cl R (cs.dropWhile Char.isDigit) := by
  intro cs
  induction cs with
  | nil => intro h; simpa using h
  | cons c cs ih =>
    intro h
    rw [List.dropWhile_cons]
    by_cases hc : c.isDigit
    · simp only [hc, if_true]
      have hcop : c ≠ op := fun he => hop (he ▸ hc)
      exact ih (goodRepl_tail_lit hcop h)
    · simp only [hc, if_false]
      exact h

/-- The head of the output of a substitution with canonical replacements:
it is the head of the input, or the bracket `'['` when the input opens with
a match. -/
theorem reSub_head (op cl : Char) (hcl : ¬ cl.isDigit)
    (R : List Char → List Char) (c : Char) (cs : List Char)
    (hg : GoodRepl op cl R (c :: cs)) :
    ∃ d rest, reSub op cl R (c :: cs) = d :: rest ∧
      (d = c ∨ (c = op ∧ d = '[')) := by
  by_cases hop : c = op
  · subst hop
    by_cases hfc : FailCond cl cs
    · rw [reSub_cons_fail c cl cs R hfc]
      exact ⟨c, _, rfl, Or.inl rfl⟩
    · obtain ⟨rs, hdecomp, hne⟩ := not_failCond_decomp cl cs hfc
      rw [hdecomp] at hg ⊢
      have hds : ∀ d ∈ cs.takeWhile Char.isDigit, d.isDigit :=
        fun d hd => List.mem_takeWhile_imp hd
      rw [reSub_cons_mark c cl hcl rs R hne hds]
      obtain ⟨-, ws, -, -, hR⟩ := goodRepl_tail_mark hcl hne hds hg
      rw [hR]
      exact ⟨'[', _, rfl, Or.inr ⟨rfl, rfl⟩⟩
  · rw [reSub_cons_lit op cl cs R hop]
    exact ⟨c, _, rfl, Or.inl rfl⟩

/-- A substitution with canonical replacements keeps a leading digit run
literally. -/
theorem reSub_digit_run (op cl : Char) (hop : ¬ op.isDigit)
    (R : List Char → List Char) :
    ∀ t, GoodRepl op cl R t →
      reSub op cl R t =
        t.takeWhile Char.isDigit ++ reSub op cl R (t.dropWhile Char.isDigit) := by
  intro t
  induction t with
  | nil => intro _; rfl
  | cons c cs ih =>
    intro hg
    rw [List.takeWhile_cons, List.dropWhile_cons]
    by_cases hd : c.isDigit
    · have hcop : c ≠ op := fun he => hop (he ▸ hd)
      rw [reSub_cons_lit op cl cs R hcop]
      simp only [hd, if_true]
      rw [ih (goodRepl_tail_lit hcop hg)]
      rfl
    · simp only [hd, if_false]
      rfl

/-- A failed match attempt stays failed after a substitution with
canonical replacements (for any observed closing character other than
`'['`). -/
theorem failCond_transfer (op cl cq : Char) (hop : ¬ op.isDigit)
    (hcl : ¬ cl.isDigit) (hcq : cq ≠ '[') (R : List Char → List Char)
    (cs : List Char) (hg : GoodRepl op cl R cs) (h : FailCond cq cs) :
    FailCond cq (reSub op cl R cs) := by
  rw [reSub_digit_run op cl hop R cs hg]
  have htw : ∀ d ∈ cs.takeWhile Char.isDigit, Char.isDigit d :=
    fun d hd => List.mem_takeWhile_imp hd
  have hgdw : GoodRepl op cl R (cs.dropWhile Char.isDigit) :=
    goodRepl_dropWhile hop hg
  cases hdw : cs.dropWhile Char.isDigit with
  | nil =>
    rw [reSub_nil]
    right
    rw [List.append_nil, dropWhile_all_nil _ htw]
    simp
  | cons r rs =>
    have hr : ¬ r.isDigit := dropWhile_head_not cs hdw
    rw [hdw] at hgdw
    obtain ⟨d, rest, hout, hd⟩ := reSub_head op cl hcl R r rs hgdw
    have hdnd : ¬ d.isDigit := by
      rcases hd with rfl | ⟨-, rfl⟩
      · exact hr
      · decide
    rcases h with h | h
    · -- the input digit run is empty, hence so is the output's
      left
      rw [h, List.nil_append, hout, List.takeWhile_cons, if_neg hdnd]
    · -- the character after the digit run is not `cq` in the input,
      -- and in the output it is that same character or `'['`
      right
      rw [hout, dropWhile_all_append _ htw, List.dropWhile_cons, if_neg hdnd]
      simp only [List.head?_cons, ne_eq, Option.some.injEq]
      rw [hdw] at h
      simp only [List.head?_cons, ne_eq, Option.some.injEq] at h
      rcases hd with rfl | ⟨-, rfl⟩
      · exact h
      · exact fun he => hcq he.symm

/-- Tokenizing a text that starts with a successful match, phrased through
the failure condition. -/
theorem tokenize_cons_not_fail (op cl : Char) (cs : List Char)
    (h : ¬ FailCond cl cs) :
    tokenize op cl (op :: cs) =
      Tok.mark (cs.takeWhile Char.isDigit) ::
        tokenize op cl (cs.dropWhile Char.isDigit).tail := by
  rw [FailCond] at h
  push_neg at h
  have hcond : op = op ∧ cs.takeWhile Char.isDigit ≠ [] ∧
      (cs.dropWhile Char.isDigit).head? = some cl := ⟨rfl, h.1, h.2⟩
  simp only [tokenize, List.length_cons]
  conv_lhs => rw [scanF]
  rw [if_pos hcond]
  refine congrArg _ (scanF_irrel op cl _ _ ?_ (Nat.lt_succ_self _))
  have h1 : (cs.dropWhile Char.isDigit).length ≤ cs.length :=
    dropWhile_length_le Char.isDigit cs
  have h2 : (cs.dropWhile Char.isDigit).tail.length =
      (cs.dropWhile Char.isDigit).length - 1 := List.length_tail _
  omega

/-! ## Texts without matches -/

/-- The empty text has no match. -/
theorem matchFree_nil (op cl : Char) : matchFree op cl [] := by
  rw [matchFree, tokenize_nil]
  rfl

/-- `matchFree` descends past any head character. -/
theorem matchFree_tail (op cl : Char) {c : Char} {cs : List Char}
    (h : matchFree op cl (c :: cs)) : matchFree op cl cs := by
  by_cases hop : c = op
  · rw [hop] at h
    by_cases hfc : FailCond cl cs
    · rw [matchFree, tokenize_cons_fail op cl cs hfc] at h
      simp only [List.all_cons, Bool.and_eq_true] at h
      exact h.2
    · rw [matchFree, tokenize_cons_not_fail op cl cs hfc] at h
      simp [isLit] at h
  · rw [matchFree, tokenize_cons_lit op cl cs hop] at h
    simp only [List.all_cons, Bool.and_eq_true] at h
    exact h.2

/-- `matchFree` descends past any leading block. -/
theorem matchFree_append_right (op cl : Char) :
    ∀ (a b : List Char), matchFree op cl (a ++ b) → matchFree op cl b := by
  intro a
  induction a with
  | nil => intro b h; exact h
  | cons c a ih =>
    intro b h
    exact ih b (matchFree_tail op cl h)

/-- In a match-free text an opening character is always a failed attempt. -/
theorem matchFree_fail (op cl : Char) {cs : List Char}
    (h : matchFree op cl (op :: cs)) : FailCond cl cs := by
  by_contra hfc
  rw [matchFree, tokenize_cons_not_fail op cl cs hfc] at h
  simp [isLit] at h

/-- Substituting in a match-free text changes nothing. -/
theorem matchFree_reSub_id (op cl : Char) (hcl : ¬ cl.isDigit)
    (R : List Char → List Char) :
    ∀ t, matchFree op cl t → reSub op cl R t = t := by
  refine tok_induction op cl (fun t => matchFree op cl t → reSub op cl R t = t)
    ?_ ?_ ?_ ?_
  · intro _; rfl
  · intro c cs hop ih h
    rw [reSub_cons_lit op cl cs R hop, ih (matchFree_tail op cl h)]
  · intro ds rs hne hds ih h
    exfalso
    rw [matchFree, tokenize_cons_mark op cl hcl rs hne hds] at h
    simp [isLit] at h
  · intro cs hfc ih h
    rw [reSub_cons_fail op cl cs R hfc, ih (matchFree_tail op cl h)]

/-- Rebuilding the text from a match-free token list gives it back. -/
theorem matchFree_cons_lit (op cl : Char) {c : Char} {x : List Char}
    (hop : c ≠ op) (h : matchFree op cl x) : matchFree op cl (c :: x) := by
  rw [matchFree, tokenize_cons_lit op cl x hop]
  simp only [List.all_cons, Bool.and_eq_true]
  exact ⟨rfl, h⟩

/-- A failed attempt followed by a match-free text is match-free. -/
theorem matchFree_cons_op_fail (op cl : Char) {x : List Char}
    (hfc : FailCond cl x) (h : matchFree op cl x) :
    matchFree op cl (op :: x) := by
  rw [matchFree, tokenize_cons_fail op cl x hfc]
  simp only [List.all_cons, Bool.and_eq_true]
  exact ⟨rfl, h⟩

/-- A block that never opens a match, followed by a match-free text, is
match-free. -/
theorem matchFree_lit_append (op cl : Char) {a x : List Char}
    (ha : ∀ c ∈ a, c ≠ op) (h : matchFree op cl x) :
    matchFree op cl (a ++ x) := by
  rw [matchFree, tokenize_lit_append op cl a x ha]
  rw [List.all_append]
  refine Bool.and_eq_true_iff.mpr ⟨?_, h⟩
  rw [List.all_eq_true]
  intro tk htk
  obtain ⟨c, -, rfl⟩ := List.mem_map.mp htk
  rfl

/-! ## One substitution pass leaves no further matches -/

/-- After one substitution pass with canonical bracket replacements there
is no remaining `(op, cl)` match, provided the pattern's brackets are not
`'['`/`']'` and are not digits (true of `{…}` and `(…)`). -/
theorem matchFree_reSub_self (op cl : Char) (hop : ¬ op.isDigit)
    (hcl : ¬ cl.isDigit) (hop1 : op ≠ '[') (hop2 : op ≠ ']') (hcl1 : cl ≠ '[')
    (R : List Char → List Char) :
    ∀ t, GoodRepl op cl R t → matchFree op cl (reSub op cl R t) := by
  refine tok_induction op cl
    (fun t => GoodRepl op cl R t → matchFree op cl (reSub op cl R t)) ?_ ?_ ?_ ?_
  · intro _
    exact matchFree_nil op cl
  · intro c cs hcop ih hg
    rw [reSub_cons_lit op cl cs R hcop]
    exact matchFree_cons_lit op cl hcop (ih (goodRepl_tail_lit hcop hg))
  · intro ds rs hne hds ih hg
    obtain ⟨hgr, ws, hwne, hwds, hR⟩ := goodRepl_tail_mark hcl hne hds hg
    rw [reSub_cons_mark op cl hcl rs R hne hds, hR]
    have hchars : ∀ c ∈ '[' :: (ws ++ [']']), c ≠ op := by
      intro c hc
      simp only [List.mem_cons, List.mem_append, List.mem_singleton] at hc
      rcases hc with rfl | hc | rfl | h0
      · exact fun he => hop1 he.symm
      · exact fun he => hop (he ▸ hwds c hc)
      · exact fun he => hop2 he.symm
      · cases h0
    rw [← List.cons_append]
    exact matchFree_lit_append op cl hchars (ih hgr)
  · intro cs hfc ih hg
    rw [reSub_cons_fail op cl cs R hfc]
    have hg' := goodRepl_tail_fail hfc hg
    exact matchFree_cons_op_fail op cl
      (failCond_transfer op cl cl hop hcl hcl1 R cs hg' hfc) (ih hg')

/-- A substitution pass for one bracket pattern cannot create a match of
another bracket pattern `(oq, cq)` (with `oq` not one of `'['`, `']'`, the
pass's own opening bracket, or a digit, and `cq ≠ '['`). -/
theorem matchFree_reSub_other (op cl oq cq : Char) (hop : ¬ op.isDigit)
    (hcl : ¬ cl.isDigit) (hoq : ¬ oq.isDigit) (h1 : oq ≠ '[') (h2 : oq ≠ ']')
    (h3 : oq ≠ op) (h4 : cq ≠ '[') (R : List Char → List Char) :
    ∀ t, GoodRepl op cl R t → matchFree oq cq t →
      matchFree oq cq (reSub op cl R t) := by
  refine tok_induction op cl
    (fun t => GoodRepl op cl R t → matchFree oq cq t →
      matchFree oq cq (reSub op cl R t)) ?_ ?_ ?_ ?_
  · intro _ _
    exact matchFree_nil oq cq
  · intro c cs hcop ih hg hmf
    have hmfcs : matchFree oq cq cs := matchFree_tail oq cq hmf
    have hgcs := goodRepl_tail_lit hcop hg
    rw [reSub_cons_lit op cl cs R hcop]
    by_cases hcoq : c = oq
    · subst hcoq
      have hfc : FailCond cq cs := matchFree_fail c cq hmf
      exact matchFree_cons_op_fail c cq
        (failCond_transfer op cl cq hop hcl h4 R cs hgcs hfc) (ih hgcs hmfcs)
    · exact matchFree_cons_lit oq cq hcoq (ih hgcs hmfcs)
  · intro ds rs hne hds ih hg hmf
    obtain ⟨hgr, ws, hwne, hwds, hR⟩ := goodRepl_tail_mark hcl hne hds hg
    rw [reSub_cons_mark op cl hcl rs R hne hds, hR]
    have hmfrs : matchFree oq cq rs := by
      refine matchFree_append_right oq cq (op :: (ds ++ [cl])) rs ?_
      have : op :: (ds ++ [cl]) ++ rs = op :: (ds ++ cl :: rs) := by simp
      rw [this]
      exact hmf
    have hchars : ∀ c ∈ '[' :: (ws ++ [']']), c ≠ oq := by
      intro c hc
      simp only [List.mem_cons, List.mem_append, List.mem_singleton] at hc
      rcases hc with rfl | hc | rfl | h0
      · exact fun he => h1 he.symm
      · exact fun he => hoq (he ▸ hwds c hc)
      · exact fun he => h2 he.symm
      · cases h0
    rw [← List.cons_append]
    exact matchFree_lit_append oq cq hchars (ih hgr hmfrs)
  · intro cs hfc ih hg hmf
    rw [reSub_cons_fail op cl cs R hfc]
    exact matchFree_cons_lit oq cq (fun he => h3 he.symm)
      (ih (goodRepl_tail_fail hfc hg) (matchFree_tail oq cq hmf))

/-- C5: bracket normalization is idempotent — applying the
`{n}`/`(n)` to `[n]` rewriting twice yields the same result as applying it
once; in particular nothing double-brackets already-canonical markers. -/
theorem claim_C5 (t : List Char) :
    normalize_brackets (normalize_brackets t) = normalize_brackets t := by
  rw [normalize_brackets, normalize_brackets]
  have mf1 : matchFree '{' '}' (reSub '{' '}' wrap t) :=
    matchFree_reSub_self '{' '}' (by decide) (by decide) (by decide) (by decide)
      (by decide) wrap t (goodRepl_wrap '{' '}' (by decide) t)
  have mf2 : matchFree '{' '}'
      (reSub '(' ')' wrap (reSub '{' '}' wrap t)) :=
    matchFree_reSub_other '(' ')' '{' '}' (by decide) (by decide) (by decide)
      (by decide) (by decide) (by decide) (by decide) wrap _
      (goodRepl_wrap '(' ')' (by decide) _) mf1
  have mf3 : matchFree '(' ')'
      (reSub '(' ')' wrap (reSub '{' '}' wrap t)) :=
    matchFree_reSub_self '(' ')' (by decide) (by decide) (by decide) (by decide)
      (by decide) wrap _ (goodRepl_wrap '(' ')' (by decide) _)
  rw [matchFree_reSub_id '{' '}' (by decide) wrap _ mf2]
  rw [matchFree_reSub_id '(' ')' (by decide) wrap _ mf3]

/-! ## Marker lists -/

/-- Markers of the empty text. -/
theorem markersOf_nil : markersOf [] = [] := rfl

/-- Markers past a character that cannot open a marker. -/
theorem markersOf_cons_lit {c : Char} (cs : List Char) (h : c ≠ '[') :
    markersOf (c :: cs) = markersOf cs := by
  rw [markersOf, tokenize_cons_lit '[' ']' cs h, List.filterMap_cons]
  rfl

/-- Markers past a failed match attempt. -/
theorem markersOf_cons_fail (cs : List Char) (h : FailCond ']' cs) :
    markersOf ('[' :: cs) = markersOf cs := by
  rw [markersOf, tokenize_cons_fail '[' ']' cs h, List.filterMap_cons]
  rfl

/-- Markers of a text opening with a complete marker. -/
theorem markersOf_cons_mark {ds : List Char} (rs : List Char) (hne : ds ≠ [])
    (hds : ∀ d ∈ ds, d.isDigit) :
    markersOf ('[' :: (ds ++ ']' :: rs)) = digitsVal ds :: markersOf rs := by
  rw [markersOf, tokenize_cons_mark '[' ']' (by decide) rs hne hds,
    List.filterMap_cons]
  rfl

/-- The value of any token-level marker appears in `markersOf`. -/
theorem mark_mem_markersOf {ds : List Char} {t : List Char}
    (h : Tok.mark ds ∈ tokenize '[' ']' t) : digitsVal ds ∈ markersOf t := by
  rw [markersOf]
  exact List.mem_filterMap.mpr ⟨Tok.mark ds, h, rfl⟩

/-- A text without `[n]` matches has no markers. -/
theorem markersOf_eq_nil_of_matchFree {t : List Char}
    (h : matchFree '[' ']' t) : markersOf t = [] := by
  rw [markersOf, List.filterMap_eq_nil_iff]
  intro tk htk
  rw [matchFree, List.all_eq_true] at h
  have := h tk htk
  cases tk with
  | lit c => rfl
  | mark ds => simp [isLit] at this

/-- Re-scanning after a covering renumbering substitution: when every
marker of `t` is rewritten to the canonical bracket form of `f` applied to
its value, the markers of the output are exactly the images under `f` of
the markers of the input. -/
theorem markersOf_reSub (f : Nat → Nat) (R : List Char → List Char) :
    ∀ t, (∀ ds, Tok.mark ds ∈ tokenize '[' ']' t →
        R ds = '[' :: (natDigits (f (digitsVal ds)) ++ [']'])) →
      markersOf (reSub '[' ']' R t) = (markersOf t).map f := by
  refine tok_induction '[' ']'
    (fun t => (∀ ds, Tok.mark ds ∈ tokenize '[' ']' t →
        R ds = '[' :: (natDigits (f (digitsVal ds)) ++ [']'])) →
      markersOf (reSub '[' ']' R t) = (markersOf t).map f) ?_ ?_ ?_ ?_
  · intro _
    rfl
  · intro c cs hcop ih hR
    rw [reSub_cons_lit '[' ']' cs R hcop, markersOf_cons_lit _ hcop,
      markersOf_cons_lit _ hcop]
    refine ih (fun ds h => hR ds ?_)
    rw [tokenize_cons_lit '[' ']' cs hcop]
    exact List.mem_cons_of_mem _ h
  · intro ds rs hne hds ih hR
    have hmem : Tok.mark ds ∈ tokenize '[' ']' ('[' :: (ds ++ ']' :: rs)) := by
      rw [tokenize_cons_mark '[' ']' (by decide) rs hne hds]
      exact List.mem_cons_self _ _
    have hRds := hR ds hmem
    rw [reSub_cons_mark '[' ']' (by decide) rs R hne hds, hRds]
    have hshape : ('[' :: (natDigits (f (digitsVal ds)) ++ [']'])) ++
        reSub '[' ']' R rs =
        '[' :: (natDigits (f (digitsVal ds)) ++ ']' :: reSub '[' ']' R rs) := by
      simp
    rw [hshape,
      markersOf_cons_mark _ (natDigits_ne_nil _) (natDigits_isDigit _),
      digitsVal_natDigits, markersOf_cons_mark rs hne hds, List.map_cons]
    refine congrArg _ (ih (fun ds' h => hR ds' ?_))
    rw [tokenize_cons_mark '[' ']' (by decide) rs hne hds]
    exact List.mem_cons_of_mem _ h
  · intro cs hfc ih hR
    have hR' : ∀ ds, Tok.mark ds ∈ tokenize '[' ']' cs →
        R ds = '[' :: (natDigits (f (digitsVal ds)) ++ [']']) := by
      intro ds h
      refine hR ds ?_
      rw [tokenize_cons_fail '[' ']' cs hfc]
      exact List.mem_cons_of_mem _ h
    have hgcs : GoodRepl '[' ']' R cs := fun ds h =>
      ⟨natDigits (f (digitsVal ds)), natDigits_ne_nil _, natDigits_isDigit _,
        hR' ds h⟩
    have hfc' : FailCond ']' (reSub '[' ']' R cs) :=
      failCond_transfer '[' ']' ']' (by decide) (by decide) (by decide) R cs
        hgcs hfc
    rw [reSub_cons_fail '[' ']' cs R hfc, markersOf_cons_fail _ hfc',
      markersOf_cons_fail _ hfc]
    exact ih hR'

/-! ## Extraction and mapping -/

/-- Membership in the result of the extraction loop. -/
theorem extractAux_mem (maxN : Nat) :
    ∀ (ms nums : List Nat) (n : Nat),
      n ∈ extractAux maxN nums ms ↔
        n ∈ nums ∨ (n ∈ ms ∧ 1 ≤ n ∧ n ≤ maxN) := by
  intro ms
  induction ms with
  | nil => intro nums n; simp [extractAux]
  | cons m ms ih =>
    intro nums n
    rw [extractAux]
    by_cases hc : 1 ≤ m ∧ m ≤ maxN ∧ m ∉ nums
    · rw [if_pos hc, ih]
      simp only [List.mem_append, List.mem_cons, List.not_mem_nil, or_false]
      constructor
      · rintro ((h | rfl) | ⟨h1, h2⟩)
        · exact Or.inl h
        · exact Or.inr ⟨Or.inl rfl, hc.1, hc.2.1⟩
        · exact Or.inr ⟨Or.inr h1, h2⟩
      · rintro (h | ⟨rfl | h1, h2⟩)
        · exact Or.inl (Or.inl h)
        · exact Or.inl (Or.inr rfl)
        · exact Or.inr ⟨h1, h2⟩
    · rw [if_neg hc, ih]
      simp only [List.mem_cons]
      constructor
      · rintro (h | ⟨h1, h2⟩)
        · exact Or.inl h
        · exact Or.inr ⟨Or.inr h1, h2⟩
      · rintro (h | ⟨rfl | h1, h2⟩)
        · exact Or.inl h
        · by_cases hn : n ∈ nums
          · exact Or.inl hn
          · exact absurd ⟨h2.1, h2.2, hn⟩ hc
        · exact Or.inr ⟨h1, h2⟩

/-- The extraction loop preserves duplicate-freeness. -/
theorem extractAux_nodup (maxN : Nat) :
    ∀ (ms nums : List Nat), nums.Nodup → (extractAux maxN nums ms).Nodup := by
  intro ms
  induction ms with
  | nil => intro nums h; exact h
  | cons m ms ih =>
    intro nums h
    rw [extractAux]
    by_cases hc : 1 ≤ m ∧ m ≤ maxN ∧ m ∉ nums
    · rw [if_pos hc]
      refine ih _ ?_
      rw [List.nodup_append]
      refine ⟨h, List.nodup_singleton m, ?_⟩
      intro a ha hm
      rw [List.mem_singleton] at hm
      subst hm
      exact hc.2.2 ha
    · rw [if_neg hc]
      exact ih _ h

/-- Membership in `extract_ref_order`: exactly the valid cited values. -/
theorem extract_ref_order_mem (t : List Char) (maxN n : Nat) :
    n ∈ extract_ref_order t maxN ↔
      n ∈ markersOf t ∧ 1 ≤ n ∧ n ≤ maxN := by
  rw [extract_ref_order, extractAux_mem]
  simp

/-- `extract_ref_order` never repeats a value. -/
theorem extract_ref_order_nodup (t : List Char) (maxN : Nat) :
    (extract_ref_order t maxN).Nodup :=
  extractAux_nodup maxN _ [] List.nodup_nil

/-- `lastIdxAux` misses values that do not occur. -/
theorem lastIdxAux_eq_none {n : Nat} :
    ∀ (ms : List Nat) (k : Nat), n ∉ ms → lastIdxAux ms n k = none := by
  intro ms
  induction ms with
  | nil => intro k _; rfl
  | cons m ms ih =>
    intro k h
    have hm : ¬ (m = n) := fun he => h (he ▸ List.mem_cons_self _ _)
    rw [lastIdxAux, ih (k + 1) (fun hm' => h (List.mem_cons_of_mem _ hm'))]
    simp [hm]

/-- On a duplicate-free list, `lastIdxAux` returns the unique position. -/
theorem lastIdxAux_nodup_get {n : Nat} :
    ∀ (ms : List Nat), ms.Nodup → ∀ (i : Nat) (h : i < ms.length) (k : Nat),
      ms.get ⟨i, h⟩ = n → lastIdxAux ms n k = some (k + i) := by
  intro ms
  induction ms with
  | nil => intro _ i h; simp at h
  | cons m ms ih =>
    intro hnd i h k hget
    cases i with
    | zero =>
      have hget' : m = n := by simpa using hget
      subst hget'
      have hn : m ∉ ms := (List.nodup_cons.mp hnd).1
      simp only [lastIdxAux, lastIdxAux_eq_none ms (k + 1) hn]
      simp
    | succ j =>
      have hnd' := (List.nodup_cons.mp hnd).2
      have hget' : ms.get ⟨j, by simpa using h⟩ = n := by simpa using hget
      simp only [lastIdxAux, ih hnd' j _ (k + 1) hget']
      exact congrArg some (by omega)

/-- Values never cited are absent from the renumbering mapping. -/
theorem mappingOf_eq_none {cited : List Nat} {n : Nat} (h : n ∉ cited) :
    mappingOf cited n = none := by
  rw [mappingOf, lastIdxAux_eq_none cited 0 h]
  rfl

/-- On a duplicate-free cited list the mapping sends the `i`-th value to
`i + 1`. -/
theorem mappingOf_get {cited : List Nat} (hnd : cited.Nodup) {i : Nat}
    (h : i < cited.length) {n : Nat} (hget : cited.get ⟨i, h⟩ = n) :
    mappingOf cited n = some (i + 1) := by
  rw [mappingOf, lastIdxAux_nodup_get cited hnd i h 0 hget]
  simp

/-- Cited values are in the mapping, with image inside `1..K`. -/
theorem mappingOf_mem_some {cited : List Nat} (hnd : cited.Nodup) {n : Nat}
    (h : n ∈ cited) :
    ∃ k, mappingOf cited n = some k ∧ 1 ≤ k ∧ k ≤ cited.length := by
  obtain ⟨i, hget⟩ := List.mem_iff_get.mp h
  exact ⟨i.1 + 1, mappingOf_get hnd i.2 hget, by omega,
    by have := i.2; omega⟩

/-- On a duplicate-free cited list the mapping enumerates `1..K` in list
order: the bijection onto the new dense indices. -/
theorem mappingOf_map_self {cited : List Nat} (hnd : cited.Nodup) :
    cited.map (fun n => (mappingOf cited n).getD 0) =
      List.range' 1 cited.length := by
  refine List.ext_get (by simp) ?_
  intro i h1 h2
  rw [List.get_map, List.get_range']
  have hi : i < cited.length := by simpa using h1
  rw [mappingOf_get hnd hi rfl]
  simp
  omega

/-! ## Claim theorems -/

/-- C1, amended.  For every raw text and evidence count `n`, the pipeline
mapping old-to-new is a bijection from the set of distinct valid cited
indices of the filtered text onto `1..K` (`K` = their count), assigned in
first-appearance order — this part unconditionally — and, provided every
marker of the validity-filtered text is in range (deleting out-of-range
markers can splice adjacent digit fragments into new out-of-range
markers, see the counterexample), every citation marker remaining in the
output text has a value in `1..K`. -/
theorem claim_C1_amended (raw : List Char) (n : Nat) :
    (cited_order raw n).Nodup ∧
    (∀ m, m ∈ cited_order raw n ↔
      (m ∈ markersOf (filtered_text raw n) ∧ 1 ≤ m ∧ m ≤ n)) ∧
    (cited_order raw n).map
        (fun m => (mappingOf (cited_order raw n) m).getD 0) =
      List.range' 1 (cited_order raw n).length ∧
    ((∀ m ∈ markersOf (filtered_text raw n), 1 ≤ m ∧ m ≤ n) →
      ∀ m ∈ markersOf (final_text raw n),
        1 ≤ m ∧ m ≤ (cited_order raw n).length) := by
  have hnd : (cited_order raw n).Nodup := extract_ref_order_nodup _ _
  have hmem : ∀ m, m ∈ cited_order raw n ↔
      (m ∈ markersOf (filtered_text raw n) ∧ 1 ≤ m ∧ m ≤ n) :=
    fun m => extract_ref_order_mem _ _ _
  refine ⟨hnd, hmem, mappingOf_map_self hnd, ?_⟩
  intro H
  have hdef : final_text raw n =
      reSub '[' ']'
        (fun ds =>
          match mappingOf (cited_order raw n) (digitsVal ds) with
          | some k => wrap (natDigits k)
          | none => [])
        (filtered_text raw n) := rfl
  have hre : markersOf (final_text raw n) =
      (markersOf (filtered_text raw n)).map
        (fun m => (mappingOf (cited_order raw n) m).getD 0) := by
    rw [hdef]
    refine markersOf_reSub _ _ _ ?_
    intro ds hds
    have hmm : digitsVal ds ∈ markersOf (filtered_text raw n) :=
      mark_mem_markersOf hds
    have hord : digitsVal ds ∈ cited_order raw n :=
      (hmem _).mpr ⟨hmm, H _ hmm⟩
    obtain ⟨k, hk, -, -⟩ := mappingOf_mem_some hnd hord
    simp [hk, wrap]
  rw [hre]
  intro m hm
  obtain ⟨m0, hm0, rfl⟩ := List.mem_map.mp hm
  have hord : m0 ∈ cited_order raw n := (hmem m0).mpr ⟨hm0, H m0 hm0⟩
  obtain ⟨k, hk, hk1, hk2⟩ := mappingOf_mem_some hnd hord
  rw [hk]
  exact ⟨hk1, hk2⟩

/-- C1, witness for the amended theorem at a concrete input: for
`"A[3] x[1] y[3]"` with `n = 5` the mapping enumerates `1..2` along the
first-appearance order `[3, 1]`, and the output marker value `1` lies in
`1..K` (the in-range proviso of the last conjunct holds and is discharged
by computation). -/
theorem claim_C1_amended_witness :
    (cited_order "A[3] x[1] y[3]".data 5).map
        (fun m => (mappingOf (cited_order "A[3] x[1] y[3]".data 5) m).getD 0) =
      List.range' 1 (cited_order "A[3] x[1] y[3]".data 5).length ∧
    (1 ≤ 1 ∧ 1 ≤ (cited_order "A[3] x[1] y[3]".data 5).length) :=
  ⟨(claim_C1_amended "A[3] x[1] y[3]".data 5).2.2.1,
   (claim_C1_amended "A[3] x[1] y[3]".data 5).2.2.2 (by decide) 1 (by decide)⟩

/-- C1, counterexample to the original claim: on `"[1[2[0]3]4] [5]"` with
`n = 5`, stripping the invalid `[0]` splices `[23]` into existence, which
is invalid and is deleted by renumbering, splicing `[14]` into existence;
the final text `"[14] [1]"` carries the marker `14` although `K = 1`.  So
it is not true that every marker of the output lies in `1..K`. -/
theorem claim_C1_counterexample :
    ¬ (∀ m ∈ markersOf (final_text "[1[2[0]3]4] [5]".data 5),
        1 ≤ m ∧ m ≤ (cited_order "[1[2[0]3]4] [5]".data 5).length) := by
  decide

/-- Rendering every marker back in its original `op … cl` surface form
reconstructs the text. -/
theorem renderTok_orig (op cl : Char) (hcl : ¬ cl.isDigit) :
    ∀ t, renderTok (fun ds => op :: (ds ++ [cl])) (tokenize op cl t) = t := by
  refine tok_induction op cl
    (fun t => renderTok (fun ds => op :: (ds ++ [cl])) (tokenize op cl t) = t)
    ?_ ?_ ?_ ?_
  · rfl
  · intro c cs hop ih
    rw [tokenize_cons_lit op cl cs hop]
    simp only [renderTok]
    rw [ih]
  · intro ds rs hne hds ih
    rw [tokenize_cons_mark op cl hcl rs hne hds]
    simp only [renderTok]
    rw [ih]
    simp
  · intro cs hfc ih
    rw [tokenize_cons_fail op cl cs hfc]
    simp only [renderTok]
    rw [ih]

/-- Tokenizing a text that never opens a match yields only literals. -/
theorem tokenize_all_lit (op cl : Char) (a : List Char)
    (ha : ∀ c ∈ a, c ≠ op) : tokenize op cl a = a.map Tok.lit := by
  have h := tokenize_lit_append op cl a [] ha
  simpa [tokenize_nil] using h

/-- C2: validity filtering deletes exactly the out-of-range canonical
markers (replacing each by the empty string) and leaves in-range markers —
indeed the whole text — unchanged when all markers are in range; the
`"[0] and [N+5] valid point"` schema loses both out-of-range markers for
every `N`. -/
theorem claim_C2 :
    (∀ (t : List Char) (n : Nat),
        (∀ m ∈ markersOf t, 1 ≤ m ∧ m ≤ n) →
          strip_invalid_citations t n = t) ∧
    ∀ n : Nat,
      strip_invalid_citations
          ("[0] and [".data ++ (natDigits (n + 5) ++ "] valid point".data)) n =
        " and  valid point".data := by
  constructor
  · intro t n hval
    have hcong : strip_invalid_citations t n =
        renderTok (fun ds => '[' :: (ds ++ [']'])) (tokenize '[' ']' t) := by
      rw [strip_invalid_citations, reSub]
      refine renderTok_congr _ ?_
      intro ds hds
      rw [if_pos (hval _ (mark_mem_markersOf hds))]
      rfl
    rw [hcong, renderTok_orig '[' ']' (by decide) t]
  · intro n
    have hsplit : "[0] and [".data ++ (natDigits (n + 5) ++ "] valid point".data) =
        '[' :: (['0'] ++ ']' :: (" and ".data ++
          ('[' :: (natDigits (n + 5) ++ ']' :: " valid point".data)))) := by
      rfl
    rw [hsplit, strip_invalid_citations, reSub]
    rw [tokenize_cons_mark '[' ']' (by decide) _ (by decide) (by decide)]
    rw [tokenize_lit_append '[' ']' " and ".data _ (by decide)]
    rw [tokenize_cons_mark '[' ']' (by decide) _ (natDigits_ne_nil _)
      (natDigits_isDigit _)]
    rw [tokenize_all_lit '[' ']' " valid point".data (by decide)]
    simp only [renderTok, renderTok_append, renderTok_map_lit]
    have h0 : ¬ (1 ≤ digitsVal ['0'] ∧ digitsVal ['0'] ≤ n) := by
      have hv : digitsVal ['0'] = 0 := by decide
      rw [hv]
      omega
    have h5 : ¬ (1 ≤ digitsVal (natDigits (n + 5)) ∧
        digitsVal (natDigits (n + 5)) ≤ n) := by
      rw [digitsVal_natDigits]
      omega
    rw [if_neg h0, if_neg h5]
    decide

/-- C2, witness: a fully valid text passes through unchanged, and the
schema at `N = 0` drops `[0]` and `[5]`. -/
theorem claim_C2_witness :
    strip_invalid_citations "a[1]b[2]".data 3 = "a[1]b[2]".data ∧
    strip_invalid_citations
        ("[0] and [".data ++ (natDigits (0 + 5) ++ "] valid point".data)) 0 =
      " and  valid point".data :=
  ⟨claim_C2.1 "a[1]b[2]".data 3 (by decide), claim_C2.2 0⟩

/-- C3: on `"A[3] point, more[3] detail, other[1] claim"` with `N = 5` the
first-appearance order is `[3, 1]`, the renumbered text maps every
occurrence of a repeated old index to the same new value, and the
reference list pairs new index 1 with evidence item 3 and new index 2 with
evidence item 1 (1-based lookup into the evidence sequence). -/
theorem claim_C3 :
    cited_order "A[3] point, more[3] detail, other[1] claim".data 5 = [3, 1] ∧
    final_text "A[3] point, more[3] detail, other[1] claim".data 5 =
      "A[1] point, more[1] detail, other[2] claim".data ∧
    ∀ (items : List (List Char)),
      refItems items
          (cited_order "A[3] point, more[3] detail, other[1] claim".data 5) =
        [(1, items.get? 2), (2, items.get? 0)] := by
  refine ⟨by decide, by decide, ?_⟩
  intro items
  have h : cited_order "A[3] point, more[3] detail, other[1] claim".data 5 =
      [3, 1] := by decide
  rw [h]
  rfl

/-- C4, counterexample: the spec's example cites 2, 5, 2 — not three 2s —
so the three references do not collapse to one mapping entry and the
output is `"See [1] and [2] and [1]"`, not `[1]` at all three positions
with a single reference entry. -/
theorem claim_C4_counterexample :
    ¬ (final_text "See {2} and (5) and [2]".data 5 =
        "See [1] and [1] and [1]".data ∧
       refPairs (cited_order "See {2} and (5) and [2]".data 5) = [(1, 2)]) := by
  decide

/-- C4, amended: with the three markers all citing 2 —
`"See {2} and (2) and [2]"` — all three bracket syntaxes normalize
uniformly, the three references collapse to a single mapping entry, the
output carries `[1]` at all three marker positions, and the reference list
has exactly one entry, for old index 2. -/
theorem claim_C4_amended :
    normalize_brackets "See {2} and (2) and [2]".data =
      "See [2] and [2] and [2]".data ∧
    cited_order "See {2} and (2) and [2]".data 5 = [2] ∧
    final_text "See {2} and (2) and [2]".data 5 =
      "See [1] and [1] and [1]".data ∧
    refPairs (cited_order "See {2} and (2) and [2]".data 5) = [(1, 2)] := by
  decide

/-- C6: every pipeline stage is a total function — in this embedding each
stage is a total Lean function, and on the edge inputs singled out by the
spec it returns: the empty string passes through every stage, and a marker
whose digit sequence exceeds 64-bit range is simply out of range
(Python's `int` is unbounded) and is removed rather than raising. -/
theorem claim_C6 :
    ∀ n : Nat,
      (normalize_brackets [] = [] ∧ strip_invalid_citations [] n = [] ∧
        extract_ref_order [] n = [] ∧ (renumber_citations [] []).1 = []) ∧
      strip_invalid_citations
          ('[' :: (natDigits (2 ^ 64 + n + 1) ++ [']'])) n = [] := by
  intro n
  refine ⟨⟨rfl, rfl, rfl, rfl⟩, ?_⟩
  have hshape : '[' :: (natDigits (2 ^ 64 + n + 1) ++ [']']) =
      '[' :: (natDigits (2 ^ 64 + n + 1) ++ ']' :: ([] : List Char)) := rfl
  rw [hshape, strip_invalid_citations, reSub,
    tokenize_cons_mark '[' ']' (by decide) _ (natDigits_ne_nil _)
      (natDigits_isDigit _),
    tokenize_nil]
  simp only [renderTok, List.append_nil]
  have hbig : ¬ (1 ≤ digitsVal (natDigits (2 ^ 64 + n + 1)) ∧
      digitsVal (natDigits (2 ^ 64 + n + 1)) ≤ n) := by
    rw [digitsVal_natDigits]
    omega
  rw [if_neg hbig]

/-- C10: renumbering deletes any marker whose value is absent from the
cited-number mapping (replacing it with the empty string, not leaving it
in place and not raising), and the returned mapping has no entry for it;
so renumbering is well-defined for any cited list. -/
theorem claim_C10 (cited : List Nat) (n : Nat) (h : n ∉ cited) :
    (renumber_citations
        ("before ".data ++ ('[' :: (natDigits n ++ (']' :: " after".data))))
        cited).1 = "before  after".data ∧
    (renumber_citations
        ("before ".data ++ ('[' :: (natDigits n ++ (']' :: " after".data))))
        cited).2 n = none := by
  have hmap : mappingOf cited n = none := mappingOf_eq_none h
  constructor
  · show reSub '[' ']' _ _ = _
    rw [reSub,
      tokenize_lit_append '[' ']' "before ".data _ (by decide),
      tokenize_cons_mark '[' ']' (by decide) _ (natDigits_ne_nil _)
        (natDigits_isDigit _),
      tokenize_all_lit '[' ']' " after".data (by decide)]
    simp only [renderTok_append, renderTok_map_lit, renderTok]
    rw [digitsVal_natDigits, hmap]
    decide
  · show mappingOf cited n = none
    exact hmap

/-- C10, witness: with cited list `[2]`, the marker `[7]` is deleted. -/
theorem claim_C10_witness :
    (renumber_citations
        ("before ".data ++ ('[' :: (natDigits 7 ++ (']' :: " after".data))))
        [2]).1 = "before  after".data :=
  (claim_C10 [2] 7 (by decide)).1

/-- C7: when no valid citation survives filtering (`K = 0`),
`build_email_core` skips renumbering, returns the filtered text, an
explicitly-empty reference mapping (a list, never an option), and
substitutes the placeholder line; in particular a text containing no
citation pattern at all is returned verbatim. -/
theorem claim_C7 (items : List Item) (raw : List Char) :
    (extract_ref_order (strip_invalid_citations (normalize_brackets raw)
          items.length) items.length = [] →
        build_email_core items raw =
          (strip_invalid_citations (normalize_brackets raw) items.length, [],
            [no_refs_msg])) ∧
    (matchFree '{' '}' raw → matchFree '(' ')' raw → matchFree '[' ']' raw →
      build_email_core items raw = (raw, [], [no_refs_msg])) := by
  constructor
  · intro h
    simp [build_email_core, h]
  · intro h1 h2 h3
    have hn : normalize_brackets raw = raw := by
      rw [normalize_brackets, matchFree_reSub_id '{' '}' (by decide) wrap raw h1,
        matchFree_reSub_id '(' ')' (by decide) wrap raw h2]
    have hs : strip_invalid_citations raw items.length = raw := by
      rw [strip_invalid_citations, matchFree_reSub_id '[' ']' (by decide) _ raw h3]
    have he : extract_ref_order raw items.length = [] := by
      rw [extract_ref_order, markersOf_eq_nil_of_matchFree h3]
      rfl
    simp [build_email_core, hn, hs, he]

/-- C7, witness: a marker-free text with no evidence yields the text
unchanged, no reference pairs, and the placeholder. -/
theorem claim_C7_witness :
    build_email_core [] "hello world".data =
      ("hello world".data, [], [no_refs_msg]) :=
  (claim_C7 [] "hello world".data).2 (by decide) (by decide) (by decide)

/-- C9: the evidence builder emits one line per item, in input order
without re-sorting, the `i`-th line carrying index `i + 1` and having the
exact form `"[i] title (link): abstract"`. -/
theorem claim_C9 (items : List Item) (i : Nat) (h : i < items.length) :
    (evidence_lines items).length = items.length ∧
    (evidence_lines items).get? i =
      some ('[' :: natDigits (i + 1) ++
        ("] ".data ++ (items.get ⟨i, h⟩).title ++ " (".data ++
          (items.get ⟨i, h⟩).link ++ "): ".data ++
          (items.get ⟨i, h⟩).abstract)) := by
  constructor
  · simp [evidence_lines]
  · rw [evidence_lines, List.get?_map, List.enum_get?, List.get?_eq_get h]
    rfl

/-- C9, witness: a two-item list renders `[1]` and `[2]` lines in order. -/
theorem claim_C9_witness :
    (evidence_lines
        [⟨"t1".data, "l1".data, "a1".data, 5⟩,
         ⟨"t2".data, "l2".data, "a2".data, 3⟩]).length = 2 ∧
    (evidence_lines
        [⟨"t1".data, "l1".data, "a1".data, 5⟩,
         ⟨"t2".data, "l2".data, "a2".data, 3⟩]).get? 1 =
      some ('[' :: natDigits 2 ++
        ("] ".data ++ "t2".data ++ " (".data ++ "l2".data ++ "): ".data ++
          "a2".data)) :=
  ⟨(claim_C9
      [⟨"t1".data, "l1".data, "a1".data, 5⟩,
       ⟨"t2".data, "l2".data, "a2".data, 3⟩] 1 (by decide)).1,
   (claim_C9
      [⟨"t1".data, "l1".data, "a1".data, 5⟩,
       ⟨"t2".data, "l2".data, "a2".data, 3⟩] 1 (by decide)).2⟩

/-! ## Dedup-by-link and sorting -/

/-- Links of items that survive a dict insertion are pairwise distinct. -/
theorem dictInsert_links_pairwise {acc : List Item} (it : Item)
    (h : acc.Pairwise (fun a b => a.link ≠ b.link)) :
    (dictInsert acc it).Pairwise (fun a b => a.link ≠ b.link) := by
  rw [dictInsert]
  by_cases hc : acc.any (fun j => decide (j.link = it.link)) = true
  · rw [if_pos hc]
    have hl : ∀ j : Item, (if j.link = it.link then it else j).link = j.link := by
      intro j
      by_cases hj : j.link = it.link
      · rw [if_pos hj, hj]
      · rw [if_neg hj]
    rw [List.pairwise_map]
    refine h.imp ?_
    intro a b hab
    rw [hl a, hl b]
    exact hab
  · rw [if_neg hc]
    rw [List.pairwise_append]
    refine ⟨h, List.pairwise_singleton _ _, ?_⟩
    intro a ha b hb
    rw [List.mem_singleton] at hb
    subst hb
    have hc' : ∀ x ∈ acc, ¬ (x.link = b.link) := by
      intro x hx
      by_contra hxy
      exact hc (List.any_eq_true.mpr ⟨x, hx, by simp [hxy]⟩)
    exact fun he => hc' a ha he

/-- The item just inserted is always present. -/
theorem mem_dictInsert_self (acc : List Item) (z : Item) :
    z ∈ dictInsert acc z := by
  rw [dictInsert]
  by_cases hc : acc.any (fun j => decide (j.link = z.link)) = true
  · rw [if_pos hc]
    obtain ⟨j, hj, hjl⟩ := List.any_eq_true.mp hc
    simp only [decide_eq_true_eq] at hjl
    refine List.mem_map.mpr ⟨j, hj, ?_⟩
    rw [if_pos hjl]
  · rw [if_neg hc]
    simp

/-- An item with a different link is untouched by a dict insertion. -/
theorem mem_dictInsert_of_ne {acc : List Item} {z x : Item} (hx : x ∈ acc)
    (hne : x.link ≠ z.link) : x ∈ dictInsert acc z := by
  rw [dictInsert]
  by_cases hc : acc.any (fun j => decide (j.link = z.link)) = true
  · rw [if_pos hc]
    refine List.mem_map.mpr ⟨x, hx, ?_⟩
    rw [if_neg hne]
  · rw [if_neg hc]
    exact List.mem_append_left _ hx

/-- Anything present after a dict insertion is the inserted item or an
untouched item with a different link. -/
theorem mem_of_mem_dictInsert {acc : List Item} {z x : Item}
    (h : x ∈ dictInsert acc z) : x = z ∨ (x ∈ acc ∧ x.link ≠ z.link) := by
  rw [dictInsert] at h
  by_cases hc : acc.any (fun j => decide (j.link = z.link)) = true
  · rw [if_pos hc] at h
    obtain ⟨j, hj, hjx⟩ := List.mem_map.mp h
    by_cases hjl : j.link = z.link
    · rw [if_pos hjl] at hjx
      exact Or.inl hjx.symm
    · rw [if_neg hjl] at hjx
      subst hjx
      exact Or.inr ⟨hj, hjl⟩
  · rw [if_neg hc] at h
    rcases List.mem_append.mp h with h | h
    · have hc' : x.link ≠ z.link := by
        intro he
        exact hc (List.any_eq_true.mpr ⟨x, h, by simp [he]⟩)
      exact Or.inr ⟨h, hc'⟩
    · rw [List.mem_singleton] at h
      exact Or.inl h

/-- Membership in the dict fold: an element of the accumulator that no
later input shares a link with, or the last input item carrying its
link. -/
theorem foldl_dictInsert_mem :
    ∀ (l acc : List Item) (x : Item),
      x ∈ l.foldl dictInsert acc ↔
        ((x ∈ acc ∧ ∀ y ∈ l, y.link ≠ x.link) ∨
         ∃ l₁ l₂, l = l₁ ++ x :: l₂ ∧ ∀ y ∈ l₂, y.link ≠ x.link) := by
  intro l
  induction l with
  | nil =>
    intro acc x
    simp only [List.foldl_nil, List.not_mem_nil]
    constructor
    · intro h
      exact Or.inl ⟨h, by intro y hy; cases hy⟩
    · rintro (⟨h, -⟩ | ⟨l₁, l₂, h, -⟩)
      · exact h
      · exact absurd h (by simp)
  | cons z l ih =>
    intro acc x
    rw [List.foldl_cons, ih]
    constructor
    · rintro (⟨hmem, hafter⟩ | ⟨l₁, l₂, hsplit, hafter⟩)
      · rcases mem_of_mem_dictInsert hmem with rfl | ⟨hacc, hne⟩
        · exact Or.inr ⟨[], l, rfl, hafter⟩
        · refine Or.inl ⟨hacc, ?_⟩
          intro y hy
          rcases List.mem_cons.mp hy with rfl | hy
          · exact fun he => hne he.symm
          · exact hafter y hy
      · exact Or.inr ⟨z :: l₁, l₂, by rw [hsplit]; rfl, hafter⟩
    · rintro (⟨hmem, hafter⟩ | ⟨l₁, l₂, hsplit, hafter⟩)
      · refine Or.inl ⟨?_, fun y hy => hafter y (List.mem_cons_of_mem _ hy)⟩
        refine mem_dictInsert_of_ne hmem ?_
        exact fun he => hafter z (List.mem_cons_self _ _) he.symm
      · cases l₁ with
        | nil =>
          simp only [List.nil_append, List.cons.injEq] at hsplit
          obtain ⟨rfl, rfl⟩ := hsplit
          exact Or.inl ⟨mem_dictInsert_self acc _, hafter⟩
        | cons w l₁ =>
          simp only [List.cons_append, List.cons.injEq] at hsplit
          obtain ⟨rfl, rfl⟩ := hsplit
          exact Or.inr ⟨l₁, l₂, rfl, hafter⟩

/-- C8: after the fetch dedup/sort stage, links are pairwise distinct,
items are ordered by publication timestamp descending, and an item is in
the output exactly when it occurs in the input with no later input item
sharing its link (last-seen wins, deterministically). -/
theorem claim_C8 (items : List Item) :
    (fetch_dedup items).Pairwise (fun a b => a.link ≠ b.link) ∧
    (fetch_dedup items).Pairwise (fun a b => b.pub ≤ a.pub) ∧
    ∀ x : Item, x ∈ fetch_dedup items ↔
      ∃ l₁ l₂, items = l₁ ++ x :: l₂ ∧ ∀ y ∈ l₂, y.link ≠ x.link := by
  have hperm : (fetch_dedup items).Perm (dedup_by_link items) :=
    List.mergeSort_perm _ _
  have hdedup : (dedup_by_link items).Pairwise (fun a b => a.link ≠ b.link) := by
    rw [dedup_by_link]
    have : ∀ (l acc : List Item),
        acc.Pairwise (fun a b => a.link ≠ b.link) →
        (l.foldl dictInsert acc).Pairwise (fun a b => a.link ≠ b.link) := by
      intro l
      induction l with
      | nil => intro acc h; exact h
      | cons z l ihl =>
        intro acc h
        exact ihl _ (dictInsert_links_pairwise z h)
    exact this items [] (List.Pairwise.nil)
  refine ⟨?_, ?_, ?_⟩
  · exact (hperm.pairwise_iff (fun h => Ne.symm h)).mpr hdedup
  · have hs := @List.sorted_mergeSort Item
      (fun a b : Item => decide (b.pub ≤ a.pub))
      (fun a b c h1 h2 => by
        simp only [decide_eq_true_eq] at h1 h2 ⊢
        omega)
      (fun a b => by
        simp only [Bool.or_eq_true, decide_eq_true_eq]
        omega)
      (dedup_by_link items)
    refine hs.imp ?_
    intro a b hab
    simpa using hab
  · intro x
    rw [hperm.mem_iff, dedup_by_link, foldl_dictInsert_mem]
    simp

/-- C8, witness: of two items sharing a link, the later-seen one survives
the dedup/sort stage, with links unique and timestamps descending. -/
theorem claim_C8_witness :
    (fetch_dedup
        [⟨"t1".data, "L".data, "x".data, 5⟩,
         ⟨"t2".data, "L".data, "y".data, 3⟩]).Pairwise
      (fun a b => a.link ≠ b.link) ∧
    (fetch_dedup
        [⟨"t1".data, "L".data, "x".data, 5⟩,
         ⟨"t2".data, "L".data, "y".data, 3⟩]).Pairwise
      (fun a b => b.pub ≤ a.pub) ∧
    (⟨"t2".data, "L".data, "y".data, 3⟩ : Item) ∈
      fetch_dedup
        [⟨"t1".data, "L".data, "x".data, 5⟩,
         ⟨"t2".data, "L".data, "y".data, 3⟩] :=
  ⟨(claim_C8 _).1, (claim_C8 _).2.1,
   ((claim_C8 _).2.2 _).mpr
     ⟨[⟨"t1".data, "L".data, "x".data, 5⟩], [], rfl, by simp⟩⟩

end WeatherToday
